import Mathlib

/-!
Verification of the day-2 safety checker (`src/day2.py`).

The program's core consists of four pure functions over integer sequences:
`deltas` (consecutive differences), `is_safe` (monotone bounded-step check),
`dampened` (one index removed), and `is_safe_with_dampening` (the dampened
variant).  We embed them shallowly on `List Int` and prove the spec's
testable properties about them.
-/

set_option autoImplicit false

/-- Embeds `deltas` from `src/day2.py`: the Python generator keeps the
previous item and yields `item - prev` for each subsequent item, so on a
materialized list it produces the consecutive differences in order and is
empty for lists of fewer than two elements. -/
def deltas : List Int → List Int
  | a :: b :: rest => (b - a) :: deltas (b :: rest)
  | _ => []

/-- The loop of `is_safe` in `src/day2.py`, with the mutable variable `sgn`
made an explicit accumulator.  `sgn = 0` means the sign is not yet
determined; each delta is first checked against the bounded-step rule
(`abs(delta) < 1 or abs(delta) > 3` fails), then its sign
(`1 if delta > 0 else -1`) is compared with the current one. -/
def is_safe_go (sgn : Int) : List Int → Bool
  | [] => true
  | delta :: rest =>
    let absDelta := |delta|
    if absDelta < 1 ∨ absDelta > 3 then false
    else
      let newSgn : Int := if delta > 0 then 1 else -1
      if sgn ≠ 0 ∧ newSgn ≠ sgn then false
      else is_safe_go newSgn rest

/-- Embeds `is_safe` from `src/day2.py`: the scan starts with `sgn = 0`. -/
def is_safe (ds : List Int) : Bool := is_safe_go 0 ds

/-- Embeds `dampened` from `src/day2.py`:
`(levels[i] for i in range(len(levels)) if i != index)`.  The index is an
arbitrary integer, as in Python; list indexing is total here because every
produced `i` is below the length. -/
def dampened (levels : List Int) (index : Int) : List Int :=
  ((List.range levels.length).filter (fun (i : Nat) => decide ((i : Int) ≠ index))).map
    (fun i => levels.getD i 0)

/-- Embeds `is_safe_with_dampening` from `src/day2.py`: the full record's
deltas are tried first, then each single-omission variant via `any`. -/
def is_safe_with_dampening (levels : List Int) : Bool :=
  if is_safe (deltas levels) then true
  else
    (List.range levels.length).any
      (fun i => is_safe (deltas (dampened levels (i : Int))))

/-- Instrumentation of the control flow of `is_safe`: follows exactly the
same scan (bounded-step check first, then the sign comparison, same early
exits) but instead of a verdict reports whether the sign-computation branch
is ever reached while the current delta is zero. -/
def sign_branch_sees_zero (sgn : Int) : List Int → Bool
  | [] => false
  | delta :: rest =>
    let absDelta := |delta|
    if absDelta < 1 ∨ absDelta > 3 then false
    else if delta = 0 then true
    else
      let newSgn : Int := if delta > 0 then 1 else -1
      if sgn ≠ 0 ∧ newSgn ≠ sgn then false
      else sign_branch_sees_zero newSgn rest

lemma dampened_cons (a : Int) (l : List Int) (index : Int) :
    dampened (a :: l) index =
      (if index = 0 then [] else [a]) ++ dampened l (index - 1) := by
  unfold dampened
  rw [List.length_cons, List.range_succ_eq_map, List.filter_cons,
    List.filter_map]
  have hpred : List.filter
        ((fun (i : Nat) => decide ((i : Int) ≠ index)) ∘ Nat.succ)
        (List.range l.length)
      = List.filter (fun (i : Nat) => decide ((i : Int) ≠ index - 1))
        (List.range l.length) := by
    apply List.filter_congr
    intro i _
    simp only [Function.comp_apply, decide_eq_decide]
    omega
  rw [hpred]
  by_cases hidx : index = 0
  · subst hidx
    simp [List.map_map, Function.comp_def, List.getD_cons_succ]
  · have h0 : (0 : Int) ≠ index := fun he => hidx he.symm
    simp [h0, hidx, List.map_map, Function.comp_def, List.getD_cons_succ]

lemma dampened_out_of_range (l : List Int) (index : Int)
    (h : index < 0 ∨ (l.length : Int) ≤ index) : dampened l index = l := by
  induction l generalizing index with
  | nil => rfl
  | cons a t ih =>
    rw [dampened_cons]
    have hne : ¬ index = 0 := by
      simp only [List.length_cons] at h
      push_cast at h
      omega
    have h' : index - 1 < 0 ∨ (t.length : Int) ≤ index - 1 := by
      simp only [List.length_cons] at h
      push_cast at h
      omega
    rw [if_neg hne, ih (index - 1) h', List.singleton_append]

lemma dampened_eraseIdx (l : List Int) (i : Nat) (h : i < l.length) :
    dampened l (i : Int) = l.eraseIdx i := by
  induction l generalizing i with
  | nil => simp at h
  | cons a t ih =>
    rw [dampened_cons]
    cases i with
    | zero =>
      have h0 : ((0 : Nat) : Int) = 0 := by norm_num
      rw [if_pos h0]
      have hneg : ((0 : Nat) : Int) - 1 < 0 ∨ (t.length : Int) ≤ ((0 : Nat) : Int) - 1 := by
        left; norm_num
      rw [dampened_out_of_range t _ hneg]
      simp [List.eraseIdx]
    | succ j =>
      have hne : ¬ ((Nat.succ j : Nat) : Int) = 0 := by
        push_cast; omega
      rw [if_neg hne]
      have hcast : ((Nat.succ j : Nat) : Int) - 1 = (j : Int) := by
        push_cast; omega
      rw [hcast, ih j (by simpa using Nat.lt_of_succ_lt_succ h)]
      simp [List.eraseIdx]

lemma length_deltas : ∀ s : List Int, (deltas s).length = s.length - 1
  | [] => rfl
  | [_] => rfl
  | a :: b :: t => by
    have ih := length_deltas (b :: t)
    simp only [deltas, List.length_cons] at ih ⊢
    omega

lemma deltas_getD : ∀ (s : List Int) (k : Nat), k + 1 < s.length →
    (deltas s).getD k 0 = s.getD (k + 1) 0 - s.getD k 0
  | [], k, h => by simp at h
  | [_], k, h => by simp at h
  | a :: b :: t, 0, _ => rfl
  | a :: b :: t, k + 1, h => by
    have hk : k + 1 < (b :: t).length := by
      simp only [List.length_cons] at h ⊢
      omega
    have ih := deltas_getD (b :: t) k hk
    simpa [deltas, List.getD_cons_succ] using ih

/-- The sign the source assigns to a delta: `1 if delta > 0 else -1`. -/
def newSgnOf (delta : Int) : Int := if delta > 0 then 1 else -1

lemma newSgnOf_one_or_neg_one (d : Int) : newSgnOf d = 1 ∨ newSgnOf d = -1 := by
  unfold newSgnOf
  split
  · exact Or.inl rfl
  · exact Or.inr rfl

lemma is_safe_go_nonzero : ∀ (ds : List Int) (sgn : Int),
    sgn = 1 ∨ sgn = -1 →
    (is_safe_go sgn ds = true ↔
      ∀ d ∈ ds, (1 ≤ |d| ∧ |d| ≤ 3) ∧ newSgnOf d = sgn)
  | [], sgn, _ => by simp [is_safe_go]
  | d :: rest, sgn, hsgn => by
    have hsgn0 : sgn ≠ 0 := by rcases hsgn with h | h <;> simp [h]
    simp only [is_safe_go]
    by_cases hb : |d| < 1 ∨ |d| > 3
    · rw [if_pos hb]
      simp only [Bool.false_eq_true, false_iff]
      intro hall
      have hd := (hall d (List.mem_cons_self d rest)).1
      rcases hb with hb | hb <;> linarith [hd.1, hd.2]
    · rw [if_neg hb,
        show (if d > 0 then (1 : Int) else -1) = newSgnOf d from rfl]
      push_neg at hb
      by_cases hss : newSgnOf d = sgn
      · rw [if_neg (by simp [hss]), hss,
          is_safe_go_nonzero rest sgn hsgn]
        constructor
        · intro hall
          intro e he
          rcases List.mem_cons.mp he with rfl | he'
          · exact ⟨⟨hb.1, hb.2⟩, hss⟩
          · exact hall e he'
        · intro hall e he
          exact hall e (List.mem_cons_of_mem d he)
      · rw [if_pos ⟨hsgn0, hss⟩]
        simp only [Bool.false_eq_true, false_iff]
        intro hall
        exact hss (hall d (List.mem_cons_self d rest)).2

/-- `is_safe` holds exactly when every delta lies in `[1, 3]` in absolute
value and all deltas are assigned the same sign by the scan. -/
lemma is_safe_iff_forall (ds : List Int) :
    is_safe ds = true ↔
      (∀ d ∈ ds, 1 ≤ |d| ∧ |d| ≤ 3) ∧
        ∀ d ∈ ds, ∀ e ∈ ds, newSgnOf d = newSgnOf e := by
  cases ds with
  | nil => simp [is_safe, is_safe_go]
  | cons d rest =>
    unfold is_safe
    simp only [is_safe_go]
    by_cases hb : |d| < 1 ∨ |d| > 3
    · rw [if_pos hb]
      simp only [Bool.false_eq_true, false_iff]
      intro hall
      have hd := hall.1 d (List.mem_cons_self d rest)
      rcases hb with hb | hb <;> linarith [hd.1, hd.2]
    · rw [if_neg hb,
        show (if d > 0 then (1 : Int) else -1) = newSgnOf d from rfl]
      push_neg at hb
      rw [if_neg (by simp),
        is_safe_go_nonzero rest (newSgnOf d) (newSgnOf_one_or_neg_one d)]
      constructor
      · intro hall
        constructor
        · intro e he
          rcases List.mem_cons.mp he with rfl | he'
          · exact ⟨hb.1, hb.2⟩
          · exact (hall e he').1
        · intro x hx y hy
          have hsx : newSgnOf x = newSgnOf d := by
            rcases List.mem_cons.mp hx with rfl | hx'
            · rfl
            · exact (hall x hx').2
          have hsy : newSgnOf y = newSgnOf d := by
            rcases List.mem_cons.mp hy with rfl | hy'
            · rfl
            · exact (hall y hy').2
          rw [hsx, hsy]
      · intro hall e he
        refine ⟨hall.1 e (List.mem_cons_of_mem d he), ?_⟩
        exact hall.2 e (List.mem_cons_of_mem d he) d (List.mem_cons_self d rest)

/-- Membership in `deltas s` is exactly being an adjacent difference. -/
lemma mem_deltas (s : List Int) (d : Int) :
    d ∈ deltas s ↔
      ∃ k, k + 1 < s.length ∧ d = s.getD (k + 1) 0 - s.getD k 0 := by
  have hlen := length_deltas s
  rw [List.mem_iff_getElem]
  constructor
  · rintro ⟨i, hi, hget⟩
    refine ⟨i, by omega, ?_⟩
    rw [← deltas_getD s i (by omega), List.getD_eq_getElem (deltas s) 0 hi,
      hget]
  · rintro ⟨k, hk, hd⟩
    have hik : k < (deltas s).length := by omega
    refine ⟨k, hik, ?_⟩
    rw [← List.getD_eq_getElem (deltas s) 0 hik, deltas_getD s k hk, hd]

lemma newSgnOf_eq_sign (d : Int) (hd : d ≠ 0) : newSgnOf d = Int.sign d := by
  unfold newSgnOf
  rcases lt_trichotomy d 0 with h | h | h
  · rw [if_neg (by omega), Int.sign_eq_neg_one_of_neg h]
  · exact absurd h hd
  · rw [if_pos h, Int.sign_eq_one_of_pos h]

/-- C1: `is_safe (deltas s)` holds exactly when every adjacent difference
of `s` has absolute value in `[1, 3]` and all the adjacent differences
share the same sign. -/
theorem is_safe_deltas_characterization (s : List Int) :
    is_safe (deltas s) = true ↔
      ((∀ k, k + 1 < s.length →
          1 ≤ |s.getD (k + 1) 0 - s.getD k 0| ∧
            |s.getD (k + 1) 0 - s.getD k 0| ≤ 3) ∧
        ∀ j k, j + 1 < s.length → k + 1 < s.length →
          Int.sign (s.getD (j + 1) 0 - s.getD j 0)
            = Int.sign (s.getD (k + 1) 0 - s.getD k 0)) := by
  rw [is_safe_iff_forall]
  constructor
  · rintro ⟨hbnd, hsg⟩
    constructor
    · intro k hk
      exact hbnd _ ((mem_deltas s _).mpr ⟨k, hk, rfl⟩)
    · intro j k hj hk
      have hmj : s.getD (j + 1) 0 - s.getD j 0 ∈ deltas s :=
        (mem_deltas s _).mpr ⟨j, hj, rfl⟩
      have hmk : s.getD (k + 1) 0 - s.getD k 0 ∈ deltas s :=
        (mem_deltas s _).mpr ⟨k, hk, rfl⟩
      have hne_j : s.getD (j + 1) 0 - s.getD j 0 ≠ 0 := by
        have hb := (hbnd _ hmj).1
        intro h0
        rw [h0] at hb
        simp at hb
      have hne_k : s.getD (k + 1) 0 - s.getD k 0 ≠ 0 := by
        have hb := (hbnd _ hmk).1
        intro h0
        rw [h0] at hb
        simp at hb
      rw [← newSgnOf_eq_sign _ hne_j, ← newSgnOf_eq_sign _ hne_k]
      exact hsg _ hmj _ hmk
  · rintro ⟨hbnd, hsg⟩
    constructor
    · intro d hd
      obtain ⟨k, hk, rfl⟩ := (mem_deltas s d).mp hd
      exact hbnd k hk
    · intro d hd e he
      obtain ⟨j, hj, rfl⟩ := (mem_deltas s d).mp hd
      obtain ⟨k, hk, rfl⟩ := (mem_deltas s e).mp he
      have hne_j : s.getD (j + 1) 0 - s.getD j 0 ≠ 0 := by
        have hb := (hbnd j hj).1
        intro h0
        rw [h0] at hb
        simp at hb
      have hne_k : s.getD (k + 1) 0 - s.getD k 0 ≠ 0 := by
        have hb := (hbnd k hk).1
        intro h0
        rw [h0] at hb
        simp at hb
      rw [newSgnOf_eq_sign _ hne_j, newSgnOf_eq_sign _ hne_k]
      exact hsg j k hj hk

lemma is_safe_go_zero_mem : ∀ (ds : List Int) (sgn : Int), (0 : Int) ∈ ds →
    is_safe_go sgn ds = false
  | [], _, h => absurd h (List.not_mem_nil 0)
  | d :: rest, sgn, h => by
    simp only [is_safe_go]
    by_cases hb : |d| < 1 ∨ |d| > 3
    · rw [if_pos hb]
    · have hd0 : d ≠ 0 := by
        intro he
        exact hb (Or.inl (by rw [he]; simp))
      have h' : (0 : Int) ∈ rest := by
        rcases List.mem_cons.mp h with he | h'
        · exact absurd he.symm hd0
        · exact h'
      rw [if_neg hb]
      by_cases hc : sgn ≠ 0 ∧ (if d > 0 then (1 : Int) else -1) ≠ sgn
      · rw [if_pos hc]
      · rw [if_neg hc]
        exact is_safe_go_zero_mem rest _ h'

lemma sign_branch_sees_zero_false : ∀ (ds : List Int) (sgn : Int),
    sign_branch_sees_zero sgn ds = false
  | [], _ => rfl
  | d :: rest, sgn => by
    simp only [sign_branch_sees_zero]
    by_cases hb : |d| < 1 ∨ |d| > 3
    · rw [if_pos hb]
    · have hd0 : ¬ d = 0 := by
        intro he
        exact hb (Or.inl (by rw [he]; simp))
      rw [if_neg hb, if_neg hd0]
      by_cases hc : sgn ≠ 0 ∧ (if d > 0 then (1 : Int) else -1) ≠ sgn
      · rw [if_pos hc]
      · rw [if_neg hc]
        exact sign_branch_sees_zero_false rest _

/-- C6: a delta sequence containing a zero is always rejected by
`is_safe`, and the scan never reaches the sign-computation branch with a
zero delta (the branch that would classify zero as decreasing is
unreachable), as witnessed by the instrumented control flow. -/
theorem zero_delta_rejected_before_sign (ds : List Int) :
    ((0 : Int) ∈ ds → is_safe ds = false) ∧
      sign_branch_sees_zero 0 ds = false :=
  ⟨fun h => is_safe_go_zero_mem ds 0 h, sign_branch_sees_zero_false ds 0⟩

/-- Witness for C6 at the delta sequence `[2, 0, 1]`. -/
theorem zero_delta_rejected_before_sign_witness :
    is_safe [2, 0, 1] = false ∧ sign_branch_sees_zero 0 [2, 0, 1] = false :=
  ⟨(zero_delta_rejected_before_sign [2, 0, 1]).1 (by decide),
    (zero_delta_rejected_before_sign [2, 0, 1]).2⟩

lemma deltas_append_singleton : ∀ (xs : List Int) (a : Int),
    deltas (xs ++ [a])
      = deltas xs ++ ((xs.getLast?).map (fun x => a - x)).toList
  | [], _ => rfl
  | [_], _ => rfl
  | x :: y :: t, a => by
    have ih := deltas_append_singleton (y :: t) a
    simp only [List.cons_append, deltas, List.append_eq] at ih ⊢
    rw [ih, List.getLast?_cons_cons]

lemma getLast?_reverse_head? (l : List Int) : l.reverse.getLast? = l.head? := by
  cases l with
  | nil => rfl
  | cons a t =>
    rw [List.reverse_cons, List.getLast?_append_cons]
    rfl

/-- Reversing a record reverses and negates its delta sequence. -/
lemma deltas_reverse : ∀ s : List Int,
    deltas s.reverse = ((deltas s).reverse).map (fun d => -d)
  | [] => rfl
  | a :: t => by
    have ih := deltas_reverse t
    rw [List.reverse_cons, deltas_append_singleton, ih,
      getLast?_reverse_head?]
    cases t with
    | nil => rfl
    | cons b t' =>
      simp [deltas, List.head?, List.map_append, neg_sub]

/-- C8: a record whose adjacent steps are all increases of between 1 and 3
is safe, and so is its reverse (a strictly decreasing record with the same
step magnitudes). -/
theorem reversal_symmetry (r : List Int)
    (h : ∀ d ∈ deltas r, 1 ≤ d ∧ d ≤ 3) :
    is_safe (deltas r) = true ∧ is_safe (deltas r.reverse) = true := by
  constructor
  · rw [is_safe_iff_forall]
    refine ⟨fun d hd => ?_, fun d hd e he => ?_⟩
    · have hb := h d hd
      rw [abs_of_pos (by linarith)]
      exact hb
    · have hbd := h d hd
      have hbe := h e he
      unfold newSgnOf
      rw [if_pos (by linarith), if_pos (by linarith)]
  · rw [is_safe_iff_forall, deltas_reverse]
    refine ⟨fun d hd => ?_, fun d hd e he => ?_⟩
    · obtain ⟨x, hx, rfl⟩ := List.mem_map.mp hd
      have hb := h x (List.mem_reverse.mp hx)
      rw [abs_of_neg (by linarith)]
      constructor <;> linarith
    · obtain ⟨x, hx, rfl⟩ := List.mem_map.mp hd
      obtain ⟨y, hy, rfl⟩ := List.mem_map.mp he
      have hbx := h x (List.mem_reverse.mp hx)
      have hby := h y (List.mem_reverse.mp hy)
      unfold newSgnOf
      rw [if_neg (by linarith), if_neg (by linarith)]

/-- Witness for C8 at the record `[1, 3, 6, 7, 9]`. -/
theorem reversal_symmetry_witness :
    is_safe (deltas [1, 3, 6, 7, 9]) = true ∧
      is_safe (deltas (List.reverse [1, 3, 6, 7, 9])) = true :=
  reversal_symmetry [1, 3, 6, 7, 9] (by decide)

/-- C5: the six concrete scenarios of the spec: plain safety of each
record's deltas and dampened safety of the record. -/
theorem scenarios_hold :
    (is_safe (deltas [7, 6, 4, 2, 1]) = true ∧
      is_safe_with_dampening [7, 6, 4, 2, 1] = true) ∧
    (is_safe (deltas [1, 2, 7, 8, 9]) = false ∧
      is_safe_with_dampening [1, 2, 7, 8, 9] = false) ∧
    (is_safe (deltas [9, 7, 6, 2, 1]) = false ∧
      is_safe_with_dampening [9, 7, 6, 2, 1] = false) ∧
    (is_safe (deltas [1, 3, 2, 4, 5]) = false ∧
      is_safe_with_dampening [1, 3, 2, 4, 5] = true) ∧
    (is_safe (deltas [8, 6, 4, 4, 1]) = false ∧
      is_safe_with_dampening [8, 6, 4, 4, 1] = true) ∧
    (is_safe (deltas [1, 3, 6, 7, 9]) = true ∧
      is_safe_with_dampening [1, 3, 6, 7, 9] = true) := by
  decide

/-- C7: a record of length 0 or 1 yields an empty delta sequence (totally,
with no error case), and `is_safe` of that empty sequence is true. -/
theorem deltas_short_record (s : List Int) (h : s.length ≤ 1) :
    deltas s = [] ∧ is_safe (deltas s) = true := by
  match s with
  | [] => exact ⟨rfl, rfl⟩
  | [a] => exact ⟨rfl, rfl⟩
  | a :: b :: t => simp at h

/-- Witness for C7 at the concrete record `[42]`. -/
theorem deltas_short_record_witness :
    deltas [(42 : Int)] = [] ∧ is_safe (deltas [(42 : Int)]) = true :=
  deltas_short_record [(42 : Int)] (by decide)

/-- C4: dampening is a monotonic weakening: a record whose full delta
sequence is already safe is also safe with dampening. -/
theorem dampening_weakens (r : List Int) (h : is_safe (deltas r) = true) :
    is_safe_with_dampening r = true := by
  unfold is_safe_with_dampening
  simp [h]

/-- Witness for C4 at the concrete record `[7, 6, 4, 2, 1]`. -/
theorem dampening_weakens_witness :
    is_safe_with_dampening [7, 6, 4, 2, 1] = true :=
  dampening_weakens [7, 6, 4, 2, 1] (by decide)

/-- C3: for a record of length at least 2, `deltas` yields exactly
`length - 1` values, the `k`-th being the k-th adjacent difference
(next minus previous); and excluding index `i` yields the remaining
elements in their original relative order (`eraseIdx`), so deltas of a
dampened record are adjacency over the remaining elements. -/
theorem deltas_are_adjacent_differences (s : List Int) (_h : 2 ≤ s.length) :
    (deltas s).length = s.length - 1 ∧
      (∀ k, k + 1 < s.length →
        (deltas s).getD k 0 = s.getD (k + 1) 0 - s.getD k 0) ∧
      (∀ (r : List Int) (i : Nat), i < r.length →
        dampened r (i : Int) = r.eraseIdx i) :=
  ⟨length_deltas s, fun k hk => deltas_getD s k hk,
    fun r i hi => dampened_eraseIdx r i hi⟩

/-- Witness for C3 at the record `[1, 3, 6]` (and exclusion of index 1). -/
theorem deltas_are_adjacent_differences_witness :
    (deltas [1, 3, 6]).length = 2 ∧
      (deltas [1, 3, 6]).getD 1 0 = [1, 3, 6].getD 2 0 - [1, 3, 6].getD 1 0 ∧
      dampened [1, 3, 6] ((1 : Nat) : Int) = [1, 3, 6].eraseIdx 1 :=
  ⟨(deltas_are_adjacent_differences [1, 3, 6] (by decide)).1,
    (deltas_are_adjacent_differences [1, 3, 6] (by decide)).2.1 1 (by decide),
    (deltas_are_adjacent_differences [1, 3, 6] (by decide)).2.2 [1, 3, 6] 1
      (by decide)⟩

/-- C9: every record of length at most 2 passes the dampened check, because
excluding one index leaves at most one element, whose delta sequence is
empty and hence vacuously safe. -/
theorem short_records_dampened_safe (r : List Int) (h : r.length ≤ 2) :
    is_safe_with_dampening r = true := by
  match r with
  | [] => rfl
  | [a] => rfl
  | [a, b] =>
    unfold is_safe_with_dampening
    by_cases hs : is_safe (deltas [a, b]) = true
    · simp [hs]
    · rw [if_neg hs]
      apply List.any_eq_true.mpr
      refine ⟨0, by simp, ?_⟩
      have hd : dampened [a, b] ((0 : Nat) : Int) = [b] := by
        rw [dampened_eraseIdx [a, b] 0 (by simp)]
        rfl
      rw [hd]
      rfl
  | a :: b :: c :: t => simp at h

/-- Witness for C9 at the record `[4, 4]`, which fails the plain check. -/
theorem short_records_dampened_safe_witness :
    is_safe_with_dampening [4, 4] = true :=
  short_records_dampened_safe [4, 4] (by decide)

/-- C10: an exclusion index outside `[0, len(r) - 1]` (negative, or at
least the length) leaves the record unchanged, so safety of the dampened
record's deltas coincides with safety of the full record's deltas. -/
theorem dampened_out_of_range_id (r : List Int) (index : Int)
    (h : index < 0 ∨ (r.length : Int) ≤ index) :
    dampened r index = r ∧
      is_safe (deltas (dampened r index)) = is_safe (deltas r) := by
  have he := dampened_out_of_range r index h
  exact ⟨he, by rw [he]⟩

/-- Witness for C10 at the record `[1, 2]` with index `-1`. -/
theorem dampened_out_of_range_id_witness :
    dampened [1, 2] (-1) = [1, 2] ∧
      is_safe (deltas (dampened [1, 2] (-1))) = is_safe (deltas [1, 2]) :=
  dampened_out_of_range_id [1, 2] (-1) (by decide)

/-- C2: the dampened check is exactly the disjunction of plain safety of
the full record and safety after excluding some index `i < len(r)`; being
a disjunction over that candidate set, the result does not depend on the
order in which candidates are checked. -/
theorem dampening_is_disjunction (r : List Int) :
    is_safe_with_dampening r = true ↔
      (is_safe (deltas r) = true ∨
        ∃ i, i < r.length ∧
          is_safe (deltas (dampened r (i : Int))) = true) := by
  unfold is_safe_with_dampening
  by_cases hs : is_safe (deltas r) = true
  · simp [hs]
  · simp [hs, List.any_eq_true, List.mem_range]
